import Mathlib

/-!
Verification of the "Copy Reference (pytest)" VS Code extension
(`out/extension.js`) against its natural-language specification.

The JavaScript source is shallowly embedded below.  Host-editor services
(word extraction, symbol provider, workspace folders, clipboard) are
modelled as explicit inputs; the string-manipulation and tree-walking
logic is translated function by function from `out/extension.js`,
keeping the source names where possible.  JavaScript strings are
modelled as Lean `String`, arrays as `List`, and `null`/`undefined`
results as `Option`.
-/

namespace PytestCopyRef

/-- Host model (vscode `Position`): a zero-based line/character pair. -/
structure Position where
  line : Nat
  character : Nat
deriving DecidableEq

/-- Host model (vscode `Range`): a start and an end position.  The end
position is called `stop` because `end` is a Lean keyword. -/
structure Range where
  start : Position
  stop : Position
deriving DecidableEq

/-- Host model (vscode `Position.isBeforeOrEqual`): lexicographic order on
(line, character). -/
def Position.isBeforeOrEqual (a b : Position) : Bool :=
  decide (a.line < b.line ∨ (a.line = b.line ∧ a.character ≤ b.character))

/-- Host model (vscode `Range.contains` applied to a position):
`start ≤ p ≤ end` in the lexicographic position order. -/
def Range.containsPos (r : Range) (p : Position) : Bool :=
  r.start.isBeforeOrEqual p && p.isBeforeOrEqual r.stop

/-- Host model (vscode `DocumentSymbol`): the three attributes the
extension reads are `name`, `range` and `children`. -/
inductive DocumentSymbol where
  | mk (name : String) (range : Range) (children : List DocumentSymbol)

def DocumentSymbol.name : DocumentSymbol → String
  | .mk n _ _ => n

def DocumentSymbol.range : DocumentSymbol → Range
  | .mk _ r _ => r

def DocumentSymbol.children : DocumentSymbol → List DocumentSymbol
  | .mk _ _ c => c

/-- Host model (vscode `TextDocument`): the attributes the extension
reads are `languageId`, `uri.path` and the full text (`getText()`). -/
structure Document where
  languageId : String
  uriPath : String
  fileContent : String

/-- JavaScript `String.prototype.split` on a single-character separator,
acting on the character list of the string. -/
def splitChar (sep : Char) : List Char → List (List Char)
  | [] => [[]]
  | c :: cs =>
    let r := splitChar sep cs
    if c = sep then [] :: r
    else
      match r with
      | h :: t => (c :: h) :: t
      | [] => [[c]]

/-- Index of the last `'.'` in a character list, if any. -/
def lastDotIndex : List Char → Option Nat
  | [] => none
  | c :: rest =>
    match lastDotIndex rest with
    | some i => some (i + 1)
    | none => if c = '.' then some 0 else none

/-- JavaScript `fileName.replace(/\.[^\/.]+$/, '')` from
`getFileNameWithoutExtension`: drop a final `"." ++ run` where the run is
a non-empty sequence of characters other than `'/'` and `'.'` (such a run
can only follow the last dot). -/
def stripLastExtension (s : String) : String :=
  let cs := s.data
  match lastDotIndex cs with
  | none => s
  | some i =>
    let rest := cs.drop (i + 1)
    if rest ≠ [] ∧ ∀ c ∈ rest, c ≠ '/' ∧ c ≠ '.' then ⟨cs.take i⟩ else s

/-- From extension.js `getFileNameWithoutExtension`:
`uri.path.split('/').pop() || ''` followed by removal of the final
extension. -/
def getFileNameWithoutExtension (path : String) : String :=
  let fileName : String := ⟨(splitChar '/' path.data).getLastD []⟩
  stripLastExtension fileName

/-- JavaScript `relativePath.replace(/\//g, '.')` from
`buildPythonModulePath`. -/
def slashesToDots (s : String) : String :=
  ⟨s.data.map fun c => if c = '/' then '.' else c⟩

/-- JavaScript `.replace(/\.py$/, '')` from `buildPythonModulePath`:
drop a literal `".py"` suffix. -/
def stripPySuffix (s : String) : String :=
  if s.data.reverse.take 3 = ['y', 'p', '.'] then ⟨s.data.take (s.data.length - 3)⟩ else s

/-- JavaScript `Array.prototype.join` with separator `sep`. -/
def joinSep (sep : String) : List String → String
  | [] => ""
  | [p] => p
  | p :: ps => p ++ sep ++ joinSep sep ps

/-- Does the second list start with the first one? -/
def beginsWith : List Char → List Char → Bool
  | [], _ => true
  | _ :: _, [] => false
  | p :: ps, c :: cs => p = c && beginsWith ps cs

/-- Host model (vscode `workspace.getWorkspaceFolder`): the first
workspace root folder whose path, followed by `'/'`, starts the file
path. -/
def getWorkspaceFolder (roots : List String) (path : String) : Option String :=
  roots.find? fun r => beginsWith (r.data ++ ['/']) path.data

/-- Host model (vscode `workspace.asRelativePath`): the path with the
containing workspace root and its trailing `'/'` removed, or the path
itself when no workspace root contains it. -/
def asRelativePath (roots : List String) (path : String) : String :=
  match getWorkspaceFolder roots path with
  | some r => ⟨path.data.drop (r.data.length + 1)⟩
  | none => path

/-- From extension.js `buildPythonModulePath`: inside a workspace the
relative path with `'/'` globally replaced by `'.'` and a final `".py"`
removed; outside any workspace the bare `fileName` argument. -/
def buildPythonModulePath (roots : List String) (doc : Document) (fileName : String) : String :=
  match getWorkspaceFolder roots doc.uriPath with
  | some _ => stripPySuffix (slashesToDots (asRelativePath roots doc.uriPath))
  | none => fileName

/-- One character of the JavaScript `\w` class (ASCII letters, digits,
underscore). -/
def isWordChar (c : Char) : Bool :=
  c.isAlphanum || c = '_'

/-- Attempt to match `kw ++ \s+ ([\w.]+)` at the head of `cs`, returning
the capture group. -/
def capturesHere (kw : List Char) (cs : List Char) : Option (List Char) :=
  if beginsWith kw cs then
    let rest := cs.drop kw.length
    let ws := rest.takeWhile Char.isWhitespace
    if ws.isEmpty then none
    else
      let cap := (rest.drop ws.length).takeWhile fun c => isWordChar c || c = '.'
      if cap.isEmpty then none else some cap
  else none

/-- Leftmost match of `kw ++ \s+ ([\w.]+)` anywhere in the text, as
JavaScript `String.prototype.match` finds it. -/
def scanKeywordCapture (kw : List Char) : List Char → Option (List Char)
  | [] => none
  | c :: cs =>
    match capturesHere kw (c :: cs) with
    | some cap => some cap
    | none => scanKeywordCapture kw cs

/-- From extension.js `extractJvmPackage`:
`fileContent.match(/package\s+([\w.]+)/)`, producing
`package.fileName` on a match and `fileName` otherwise. -/
def extractJvmPackage (fileContent fileName : String) : String :=
  match scanKeywordCapture "package".data fileContent.data with
  | some cap => (⟨cap⟩ : String) ++ "." ++ fileName
  | none => fileName

/-- From extension.js `extractCSharpNamespace`:
`fileContent.match(/namespace\s+([\w.]+)/)`, producing
`namespace.fileName` on a match and `fileName` otherwise. -/
def extractCSharpNamespace (fileContent fileName : String) : String :=
  match scanKeywordCapture "namespace".data fileContent.data with
  | some cap => (⟨cap⟩ : String) ++ "." ++ fileName
  | none => fileName

/-- From extension.js `extractTypeScriptModule`: always the file name. -/
def extractTypeScriptModule (fileContent fileName : String) : String :=
  fileName

/-- From extension.js `extractNamespacePrefix` (final identifier segment
renamed to `Part`): dispatch on the language identifier. -/
def extractNamespacePart (roots : List String) (doc : Document) : String :=
  let fileName := getFileNameWithoutExtension doc.uriPath
  match doc.languageId with
  | "python" => buildPythonModulePath roots doc fileName
  | "java" => extractJvmPackage doc.fileContent fileName
  | "kotlin" => extractJvmPackage doc.fileContent fileName
  | "scala" => extractJvmPackage doc.fileContent fileName
  | "csharp" => extractCSharpNamespace doc.fileContent fileName
  | "typescript" => extractTypeScriptModule doc.fileContent fileName
  | "javascript" => extractTypeScriptModule doc.fileContent fileName
  | _ => fileName

/-- From extension.js `getLanguageSeparator`: `"::"` for C and C++, and
`"."` for every other language identifier (Python included, via the
fall-through to `default`). -/
def getLanguageSeparator (languageId : String) : String :=
  match languageId with
  | "cpp" => "::"
  | "c" => "::"
  | _ => "."

/-- From extension.js `buildCompleteReference`: the namespace part is
pushed only when truthy (a non-empty string), then every symbol name in
order, and the parts are joined with the language separator. -/
def buildCompleteReference (roots : List String) (doc : Document)
    (symbolPath : List DocumentSymbol) : String :=
  let nsPart := extractNamespacePart roots doc
  let parts := (if nsPart = "" then [] else [nsPart]) ++ symbolPath.map DocumentSymbol.name
  joinSep (getLanguageSeparator doc.languageId) parts

/-- From extension.js `findSymbolHierarchy`: at each level take the first
symbol whose range contains the position, then continue inside its
children; stop at the first level with no containing symbol.  (The inner
`searchSymbols` guard `children && children.length > 0` is equivalent to
recursing into an empty list.) -/
def findSymbolHierarchy (pos : Position) : List DocumentSymbol → List DocumentSymbol
  | [] => []
  | DocumentSymbol.mk n r cs :: rest =>
    if r.containsPos pos then
      DocumentSymbol.mk n r cs :: findSymbolHierarchy pos cs
    else
      findSymbolHierarchy pos rest

/-- From extension.js `findSymbolByName`: depth-first pre-order scan for
the first symbol whose name equals `target` exactly, returning that
single symbol, or `none` when nothing matches. -/
def findSymbolByName : List DocumentSymbol → String → Option DocumentSymbol
  | [], _ => none
  | DocumentSymbol.mk n r cs :: rest, target =>
    if n = target then some (DocumentSymbol.mk n r cs)
    else
      match findSymbolByName cs target with
      | some m => some m
      | none => findSymbolByName rest target

/-- From extension.js `buildFallbackReference`: for Python the module
path joined to the word with a literal `"."`; otherwise file name,
language separator, word. -/
def buildFallbackReference (roots : List String) (doc : Document) (word : String) : String :=
  let fileName := getFileNameWithoutExtension doc.uriPath
  let separator := getLanguageSeparator doc.languageId
  if doc.languageId = "python" then
    buildPythonModulePath roots doc fileName ++ "." ++ word
  else
    fileName ++ separator ++ word

/-- From extension.js `buildSimpleFallbackReference`: `none` when the
word is empty or whitespace-only (`!word || word.trim().length === 0`),
otherwise the same shape as `buildFallbackReference`. -/
def buildSimpleFallbackReference (roots : List String) (doc : Document)
    (word : String) : Option String :=
  if word.data.all Char.isWhitespace then none
  else if doc.languageId = "python" then
    some (buildPythonModulePath roots doc (getFileNameWithoutExtension doc.uriPath) ++ "." ++ word)
  else
    some (getFileNameWithoutExtension doc.uriPath ++ getLanguageSeparator doc.languageId ++ word)

/-- From extension.js `generateFullReference`.  The host inputs are made
explicit: `wordAt` is the word under the cursor when
`getWordRangeAtPosition` finds one, and `symbols` is the result of
`getDocumentSymbols` (`none` models both a provider failure, which is
caught and turned into `null`, and a `null`/`undefined` provider
result). -/
def generateFullReference (roots : List String) (doc : Document) (pos : Position)
    (wordAt : Option String) (symbols : Option (List DocumentSymbol)) : Option String :=
  match wordAt with
  | none => none
  | some word =>
    match symbols with
    | none => some (buildFallbackReference roots doc word)
    | some syms =>
      if syms.length = 0 then some (buildFallbackReference roots doc word)
      else
        let symbolPath := findSymbolHierarchy pos syms
        if symbolPath.length = 0 then
          match findSymbolByName syms word with
          | some matchingSymbol => some (buildCompleteReference roots doc [matchingSymbol])
          | none => some (buildFallbackReference roots doc word)
        else
          some (buildCompleteReference roots doc symbolPath)

/-- Host state visible to `handleCopyReference` for one invocation: the
active document, the cursor, the word under the cursor (if any), and the
answer of the symbol provider. -/
structure EditorState where
  doc : Document
  pos : Position
  wordAt : Option String
  symbols : Option (List DocumentSymbol)

/-- Observable outcome of one command invocation: a warning notice, or a
clipboard write plus an information notice, or the generic error notice
from the top-level `catch`. -/
inductive Outcome where
  | warned (msg : String)
  | copied (text : String) (msg : String)
  | errored (msg : String)
deriving DecidableEq

/-- The else-branch of the `if (reference)` check in extension.js
`handleCopyReference` (the enhanced fallback for diff views and special
contexts): taken when `generateFullReference` returns a falsy value,
either `null` or the empty string.  It retries with
`buildSimpleFallbackReference` on the word at the cursor and warns when
even that yields nothing. -/
def handleCopyFallback (roots : List String) (e : EditorState) : Outcome :=
  match e.wordAt with
  | some word =>
    match buildSimpleFallbackReference roots e.doc word with
    | some fallbackRef => .copied fallbackRef ("Copied (fallback): " ++ fallbackRef)
    | none => .warned "Could not determine reference path for this symbol"
  | none => .warned "Could not determine reference path for this symbol"

/-- From extension.js `handleCopyReference`.  The source guards the copy
with the JavaScript truthiness check `if (reference)`, under which both
`null` and the empty string fall through to the enhanced-fallback
branch; the model therefore checks `reference = ""` explicitly on the
`some` side.  The unused local `isDiffView` of the source is dropped.
The `errored` outcome of the top-level `catch` is reachable only through
host exceptions, which the pure model does not produce. -/
def handleCopyReference (roots : List String) (editor : Option EditorState) : Outcome :=
  match editor with
  | none => .warned "No active editor found"
  | some e =>
    match generateFullReference roots e.doc e.pos e.wordAt e.symbols with
    | some reference =>
      if reference = "" then handleCopyFallback roots e
      else .copied reference ("Copied: " ++ reference)
    | none => handleCopyFallback roots e

/-- Every node of a symbol forest: each root followed by all of its
descendants, in order. -/
def symForestNodes : List DocumentSymbol → List DocumentSymbol
  | [] => []
  | DocumentSymbol.mk n r cs :: rest =>
    DocumentSymbol.mk n r cs :: (symForestNodes cs ++ symForestNodes rest)

/-- Modelled from the spec, section 4.4 (Reference Formatting): join the
module path (when non-empty) followed by the symbol names, with the
fixed separator `"::"` between every pair of adjacent segments. -/
def specFormatReference (modulePath : String) (names : List String) : String :=
  joinSep "::" (if modulePath = "" then names else modulePath :: names)

/-- Modelled from the spec, section 4.2 (Fallback Name Search): the path
from the outermost ancestor down to the first symbol, in depth-first
top-to-bottom pre-order, whose name equals the target exactly; `none`
when no symbol in the forest matches. -/
def specFindSymbolPathByName : List DocumentSymbol → String → Option (List DocumentSymbol)
  | [], _ => none
  | DocumentSymbol.mk n r cs :: rest, target =>
    if n = target then some [DocumentSymbol.mk n r cs]
    else
      match specFindSymbolPathByName cs target with
      | some p => some (DocumentSymbol.mk n r cs :: p)
      | none => specFindSymbolPathByName rest target

end PytestCopyRef

namespace PytestCopyRef

/-- The single workspace root used by the concrete test documents. -/
def wsRoots : List String := ["/ws"]

/-- Concrete document for the round-trip scenario of the spec:
`/ws/pkg/sub/test_mod.py`. -/
def docTestMod : Document := ⟨"python", "/ws/pkg/sub/test_mod.py", ""⟩

/-- Concrete method symbol `test_it`, spanning lines 1-3. -/
def symTestIt : DocumentSymbol := .mk "test_it" ⟨⟨1, 4⟩, ⟨3, 8⟩⟩ []

/-- Concrete class symbol `TestThing`, spanning lines 0-10, containing
`test_it`. -/
def symTestThing : DocumentSymbol := .mk "TestThing" ⟨⟨0, 0⟩, ⟨10, 0⟩⟩ [symTestIt]

/-- A cursor position inside the range of `test_it`. -/
def posInTestIt : Position := ⟨2, 6⟩

/-- Concrete document for reference formatting: `/ws/m.py`. -/
def docMod : Document := ⟨"python", "/ws/m.py", ""⟩

/-- Concrete class-like symbol named `A`. -/
def symA : DocumentSymbol := .mk "A" ⟨⟨0, 0⟩, ⟨4, 0⟩⟩ []

/-- Concrete function-like symbol named `f`. -/
def symF : DocumentSymbol := .mk "f" ⟨⟨1, 0⟩, ⟨2, 0⟩⟩ []

/-- Concrete package-initializer document `/ws/pkg/__init__.py`. -/
def docInit : Document := ⟨"python", "/ws/pkg/__init__.py", ""⟩

/-- Concrete top-level function symbol `setup` in the initializer. -/
def symSetup : DocumentSymbol := .mk "setup" ⟨⟨0, 0⟩, ⟨5, 0⟩⟩ []

/-- A cursor position inside the range of `setup`. -/
def posInSetup : Position := ⟨1, 2⟩

/-- Concrete non-Python document `/ws/foo.js`. -/
def docJsFile : Document := ⟨"javascript", "/ws/foo.js", ""⟩

/-- Concrete editor state: cursor on the word `bar` in the JavaScript
document, with an empty symbol forest. -/
def edJs : EditorState := ⟨docJsFile, ⟨0, 0⟩, some "bar", some []⟩

/-- Concrete symbol `target` nested inside `A`. -/
def symTargetInner : DocumentSymbol := .mk "target" ⟨⟨1, 0⟩, ⟨2, 0⟩⟩ []

/-- Concrete root symbol `A` containing `target`. -/
def symOuterA : DocumentSymbol := .mk "A" ⟨⟨0, 0⟩, ⟨3, 0⟩⟩ [symTargetInner]

/-- A cursor position outside every symbol range of the `A`/`target`
forest. -/
def posOutside : Position := ⟨5, 0⟩

/-- Concrete document outside every workspace root: `/tmp/scratch.py`. -/
def docScratch : Document := ⟨"python", "/tmp/scratch.py", ""⟩

/-- Concrete top-level symbol `helper`. -/
def symHelper : DocumentSymbol := .mk "helper" ⟨⟨0, 0⟩, ⟨2, 0⟩⟩ []

/-- Concrete lone non-matching symbol for the `C10_theorem` witness. -/
def symLone : DocumentSymbol := .mk "A" ⟨⟨0, 0⟩, ⟨1, 0⟩⟩ []

/-- Concrete document `/ws/a/b.py`. -/
def docAB : Document := ⟨"python", "/ws/a/b.py", ""⟩

theorem findSymbolHierarchy_mem_contains (pos : Position) (l : List DocumentSymbol) :
    ∀ s ∈ findSymbolHierarchy pos l, s.range.containsPos pos = true := by
  induction l using findSymbolHierarchy.induct pos with
  | case1 => simp [findSymbolHierarchy]
  | case2 n r cs rest hc ih =>
    simp only [findSymbolHierarchy, hc, if_true]
    intro s hs
    rcases List.mem_cons.mp hs with h | h
    · subst h; simpa [DocumentSymbol.range] using hc
    · exact ih s h
  | case3 n r cs rest hc ih =>
    simpa [findSymbolHierarchy, hc] using ih

theorem findSymbolHierarchy_head (pos : Position) (l : List DocumentSymbol) :
    (findSymbolHierarchy pos l).head? = l.find? fun s => s.range.containsPos pos := by
  induction l using findSymbolHierarchy.induct pos with
  | case1 => simp [findSymbolHierarchy]
  | case2 n r cs rest hc ih =>
    simp [findSymbolHierarchy, hc, List.find?_cons_of_pos, DocumentSymbol.range]
  | case3 n r cs rest hc ih =>
    rw [findSymbolHierarchy, if_neg (by simpa using hc), ih,
      List.find?_cons_of_neg]
    simpa [DocumentSymbol.range] using hc

theorem findSymbolHierarchy_tail (pos : Position) (l : List DocumentSymbol) :
    ∀ s, (findSymbolHierarchy pos l).head? = some s →
      (findSymbolHierarchy pos l).tail = findSymbolHierarchy pos s.children := by
  induction l using findSymbolHierarchy.induct pos with
  | case1 => simp [findSymbolHierarchy]
  | case2 n r cs rest hc ih =>
    intro s hs
    simp only [findSymbolHierarchy, hc, if_true, List.head?_cons, Option.some.injEq] at hs
    subst hs
    simp [findSymbolHierarchy, hc, DocumentSymbol.children]
  | case3 n r cs rest hc ih =>
    simpa [findSymbolHierarchy, hc] using ih

theorem findSymbolHierarchy_chain (pos : Position) (l : List DocumentSymbol) :
    List.Chain' (fun a b => b ∈ a.children) (findSymbolHierarchy pos l) := by
  induction l using findSymbolHierarchy.induct pos with
  | case1 => simp [findSymbolHierarchy]
  | case2 n r cs rest hc ih =>
    simp only [findSymbolHierarchy, hc, if_true]
    rw [List.chain'_cons']
    refine ⟨fun y hy => ?_, ih⟩
    rw [findSymbolHierarchy_head pos cs] at hy
    simp only [Option.mem_def] at hy
    simpa [DocumentSymbol.children] using List.mem_of_find?_eq_some hy
  | case3 n r cs rest hc ih =>
    simpa [findSymbolHierarchy, hc] using ih

theorem findSymbolHierarchy_eq_nil (pos : Position) (l : List DocumentSymbol)
    (h : ∀ s ∈ l, s.range.containsPos pos = false) :
    findSymbolHierarchy pos l = [] := by
  induction l with
  | nil => simp [findSymbolHierarchy]
  | cons s rest ih =>
    cases s with
    | mk n r cs =>
      have hr : r.containsPos pos = false := by
        simpa [DocumentSymbol.range] using h (DocumentSymbol.mk n r cs) (List.mem_cons_self _ _)
      rw [findSymbolHierarchy, if_neg (by simp [hr])]
      exact ih fun s hs => h s (List.mem_cons_of_mem _ hs)

theorem mem_symForestNodes_of_mem {s : DocumentSymbol} {l : List DocumentSymbol}
    (h : s ∈ l) : s ∈ symForestNodes l := by
  induction l with
  | nil => cases h
  | cons t rest ih =>
    cases t with
    | mk n r cs =>
      rcases List.mem_cons.mp h with h | h
      · subst h; simp [symForestNodes]
      · simp [symForestNodes, ih h]

theorem mem_symForestNodes_children {s : DocumentSymbol} {n : String} {r : Range}
    {cs rest : List DocumentSymbol} (h : s ∈ symForestNodes cs) :
    s ∈ symForestNodes (DocumentSymbol.mk n r cs :: rest) := by
  simp [symForestNodes, h]

theorem mem_symForestNodes_rest {s : DocumentSymbol} {n : String} {r : Range}
    {cs rest : List DocumentSymbol} (h : s ∈ symForestNodes rest) :
    s ∈ symForestNodes (DocumentSymbol.mk n r cs :: rest) := by
  simp [symForestNodes, h]

theorem findSymbolByName_eq_none (l : List DocumentSymbol) (w : String) :
    (∀ s ∈ symForestNodes l, s.name ≠ w) → findSymbolByName l w = none := by
  induction l, w using findSymbolByName.induct with
  | case1 target =>
    intro h
    simp [findSymbolByName]
  | case2 r cs rest target =>
    intro h
    have hcontra := h (DocumentSymbol.mk target r cs) (by simp [symForestNodes])
    simp [DocumentSymbol.name] at hcontra
  | case3 n r cs rest target hne m hm ihc =>
    intro h
    have hnone := ihc fun s hs => h s (mem_symForestNodes_children hs)
    exact absurd hm (by simp [hnone])
  | case4 n r cs rest target hne hm ihc ihr =>
    intro h
    rw [findSymbolByName, if_neg hne, hm]
    exact ihr fun s hs => h s (mem_symForestNodes_rest hs)

theorem specFindSymbolPathByName_ne_nil (l : List DocumentSymbol) (w : String) :
    ∀ p, specFindSymbolPathByName l w = some p → p ≠ [] := by
  induction l, w using specFindSymbolPathByName.induct with
  | case1 target =>
    intro p hp
    simp [specFindSymbolPathByName] at hp
  | case2 r cs rest target =>
    intro p hp
    rw [specFindSymbolPathByName, if_pos rfl] at hp
    simp only [Option.some.injEq] at hp
    subst hp
    simp
  | case3 n r cs rest target hne p hp ihc =>
    intro q hq
    rw [specFindSymbolPathByName, if_neg hne, hp] at hq
    simp only [Option.some.injEq] at hq
    subst hq
    simp
  | case4 n r cs rest target hne hp ihc ihr =>
    intro q hq
    rw [specFindSymbolPathByName, if_neg hne, hp] at hq
    exact ihr q hq

theorem findSymbolByName_eq_spec_getLast (l : List DocumentSymbol) (w : String) :
    findSymbolByName l w = (specFindSymbolPathByName l w).bind List.getLast? := by
  induction l, w using findSymbolByName.induct with
  | case1 target => simp [findSymbolByName, specFindSymbolPathByName]
  | case2 r cs rest target =>
    rw [findSymbolByName, if_pos rfl, specFindSymbolPathByName, if_pos rfl]
    simp
  | case3 n r cs rest target hne m hm ihc =>
    rw [findSymbolByName, if_neg hne, hm]
    rw [hm] at ihc
    rcases hspec : specFindSymbolPathByName cs target with _ | p
    · rw [hspec, Option.none_bind] at ihc
      exact absurd ihc (by simp)
    · rw [hspec, Option.some_bind] at ihc
      have hpne : p ≠ [] := specFindSymbolPathByName_ne_nil cs target p hspec
      rcases p with _ | ⟨q, p2⟩
      · exact absurd rfl hpne
      · rw [specFindSymbolPathByName, if_neg hne, hspec, Option.some_bind,
          List.getLast?_cons_cons]
        exact ihc
  | case4 n r cs rest target hne hm ihc ihr =>
    rw [findSymbolByName, if_neg hne, hm]
    rw [hm] at ihc
    rcases hspec : specFindSymbolPathByName cs target with _ | p
    · rw [specFindSymbolPathByName, if_neg hne, hspec]
      exact ihr
    · rw [hspec, Option.some_bind] at ihc
      have hpne : p ≠ [] := specFindSymbolPathByName_ne_nil cs target p hspec
      have : p.getLast? = none := ihc.symm
      rw [List.getLast?_eq_none_iff] at this
      exact absurd this hpne

theorem generateFullReference_isSome (roots : List String) (doc : Document)
    (pos : Position) (w : String) (symbols : Option (List DocumentSymbol)) :
    ∃ ref, generateFullReference roots doc pos (some w) symbols = some ref := by
  rcases symbols with _ | syms
  · exact ⟨_, rfl⟩
  · simp only [generateFullReference]
    by_cases h1 : syms.length = 0
    · simp only [h1, if_pos rfl]
      exact ⟨_, rfl⟩
    · simp only [if_neg h1]
      by_cases h2 : (findSymbolHierarchy pos syms).length = 0
      · simp only [h2, if_pos rfl]
        rcases hf : findSymbolByName syms w with _ | m
        · exact ⟨_, rfl⟩
        · exact ⟨_, rfl⟩
      · simp only [if_neg h2]
        exact ⟨_, rfl⟩

/-- Claim C1 is false on the code: for workspace root `/ws`, file
`/ws/pkg/sub/test_mod.py` and a cursor inside `test_it` of `TestThing`,
the end-to-end reference is `pkg.sub.test_mod.TestThing.test_it`, not
`pkg/sub/test_mod::TestThing::test_it` — `buildPythonModulePath`
converts the path separators to dots and the join separator for Python
is `"."`. -/
theorem C1_counterexample :
    generateFullReference wsRoots docTestMod posInTestIt (some "test_it") (some [symTestThing])
      = some "pkg.sub.test_mod.TestThing.test_it" ∧
    generateFullReference wsRoots docTestMod posInTestIt (some "test_it") (some [symTestThing])
      ≠ some "pkg/sub/test_mod::TestThing::test_it" := by
  constructor <;>
    simp [generateFullReference, findSymbolHierarchy, buildCompleteReference, extractNamespacePart,
      buildPythonModulePath, getWorkspaceFolder, asRelativePath, wsRoots, docTestMod, posInTestIt,
      symTestThing, symTestIt, Range.containsPos, Position.isBeforeOrEqual, beginsWith,
      slashesToDots, stripPySuffix, getFileNameWithoutExtension, stripLastExtension, lastDotIndex,
      splitChar, getLanguageSeparator, joinSep, DocumentSymbol.name]

/-- Claim C1, amended: for the fixed workspace root `/ws`, the file
`/ws/pkg/sub/test_mod.py`, and a cursor position contained in the range
of method `test_it` nested inside class `TestThing`, the end-to-end
reference generation produces exactly
`pkg.sub.test_mod.TestThing.test_it`: the separators of the module path are
converted to dots and the segments are joined with `"."`. -/
theorem C1_theorem :
    generateFullReference wsRoots docTestMod posInTestIt (some "test_it") (some [symTestThing])
      = some "pkg.sub.test_mod.TestThing.test_it" := by
  simp [generateFullReference, findSymbolHierarchy, buildCompleteReference, extractNamespacePart,
    buildPythonModulePath, getWorkspaceFolder, asRelativePath, wsRoots, docTestMod, posInTestIt,
    symTestThing, symTestIt, Range.containsPos, Position.isBeforeOrEqual, beginsWith,
    slashesToDots, stripPySuffix, getFileNameWithoutExtension, stripLastExtension, lastDotIndex,
    splitChar, getLanguageSeparator, joinSep, DocumentSymbol.name]

/-- Claim C2: the code contradicts it (and the repository README, which
documents `module::Class::method` output).  At the failing input — the
Python document `/ws/m.py` with symbol path `[A, f]` —
`buildCompleteReference` joins with `getLanguageSeparator "python" = "."`
and produces `m.A.f`, while the formatting contract of the spec
(`specFormatReference`, fixed `"::"` separator) requires `m::A::f`. -/
theorem C2_theorem :
    buildCompleteReference wsRoots docMod [symA, symF] = "m.A.f" ∧
    specFormatReference "m" ["A", "f"] = "m::A::f" ∧
    buildCompleteReference wsRoots docMod [symA, symF] ≠ specFormatReference "m" ["A", "f"] := by
  refine ⟨?_, by simp [specFormatReference, joinSep], ?_⟩ <;>
    simp [buildCompleteReference, extractNamespacePart, buildPythonModulePath,
      getWorkspaceFolder, asRelativePath, wsRoots, docMod, symA, symF, beginsWith,
      slashesToDots, stripPySuffix, getFileNameWithoutExtension, stripLastExtension,
      lastDotIndex, splitChar, getLanguageSeparator, joinSep, DocumentSymbol.name,
      specFormatReference]

/-- Claim C3: the code contradicts it (and the README feature
"special-cases `__init__.py`").  `buildPythonModulePath` never
strips a final `__init__` segment: for `/ws/pkg/__init__.py` with a
cursor inside the top-level function `setup`, the produced reference is
`pkg.__init__.setup`, not `pkg::setup`. -/
theorem C3_theorem :
    generateFullReference wsRoots docInit posInSetup (some "setup") (some [symSetup])
      = some "pkg.__init__.setup" ∧
    generateFullReference wsRoots docInit posInSetup (some "setup") (some [symSetup])
      ≠ some "pkg::setup" := by
  constructor <;>
    simp [generateFullReference, findSymbolHierarchy, buildCompleteReference, extractNamespacePart,
      buildPythonModulePath, getWorkspaceFolder, asRelativePath, wsRoots, docInit, posInSetup,
      symSetup, Range.containsPos, Position.isBeforeOrEqual, beginsWith,
      slashesToDots, stripPySuffix, getFileNameWithoutExtension, stripLastExtension, lastDotIndex,
      splitChar, getLanguageSeparator, joinSep, DocumentSymbol.name]

/-- A string of the shape `a ++ "." ++ b` is never empty, so the
JavaScript truthiness check on a Python fallback reference always
passes. -/
theorem append_dot_append_ne_empty (a b : String) : a ++ "." ++ b ≠ "" := by
  intro hcontra
  have hlen := congrArg String.length hcontra
  have hdot : ("." : String).length = 1 := rfl
  simp only [String.length_append, hdot, String.length_empty] at hlen
  omega

/-- Claim C4 is false on the code: `handleCopyReference` performs no
language check, so invoking the command on a JavaScript document with a
word at the cursor ends in a clipboard write (`copied`), not a warning
with no clipboard write. -/
theorem C4_counterexample :
    handleCopyReference wsRoots (some edJs) = .copied "foo.bar" "Copied: foo.bar" ∧
    edJs.doc.languageId ≠ "python" := by
  constructor
  · simp [handleCopyReference, generateFullReference, buildFallbackReference, edJs, docJsFile,
      getFileNameWithoutExtension, stripLastExtension, lastDotIndex, splitChar,
      getLanguageSeparator, wsRoots]
  · simp [edJs, docJsFile]

/-- Claim C4, amended: the flow has no language gate at all.  Whenever an
editor is active on a document whose language identifier is not Python
and a non-whitespace word exists at the cursor, the command performs a
clipboard write with a notice — through the main path, or through the
enhanced fallback when the computed reference is the empty string —
rather than ending with a warning and no clipboard write. -/
theorem C4_theorem (roots : List String) (e : EditorState) (w : String)
    (hw : e.wordAt = some w) (hl : e.doc.languageId ≠ "python")
    (hww : w.data.all Char.isWhitespace = false) :
    ∃ text msg, handleCopyReference roots (some e) = .copied text msg := by
  obtain ⟨ref, href⟩ := generateFullReference_isSome roots e.doc e.pos w e.symbols
  by_cases hempty : ref = ""
  · subst hempty
    refine ⟨getFileNameWithoutExtension e.doc.uriPath ++ getLanguageSeparator e.doc.languageId ++ w,
      "Copied (fallback): "
        ++ (getFileNameWithoutExtension e.doc.uriPath ++ getLanguageSeparator e.doc.languageId ++ w), ?_⟩
    simp only [handleCopyReference, hw, href, if_pos rfl, handleCopyFallback,
      buildSimpleFallbackReference, hww, Bool.false_eq_true, if_false, if_neg hl, eq_self_iff_true,
      if_true]
  · refine ⟨ref, "Copied: " ++ ref, ?_⟩
    simp only [handleCopyReference, hw, href, if_neg hempty]

/-- Witness for `C4_theorem` at the concrete JavaScript editor state. -/
theorem C4_witness :
    ∃ text msg, handleCopyReference wsRoots (some edJs) = .copied text msg :=
  C4_theorem wsRoots edJs "bar" rfl (by decide) (by decide)

/-- Claim C5 is false on the code: with the cursor on the word `target`
but outside every range, the fallback contract of the spec returns the path
`[A, target]` from the outermost ancestor down to the match, yet
`findSymbolByName` returns only the matching symbol, so the produced
reference is `m.target`, not the path reference `m.A.target`. -/
theorem C5_counterexample :
    specFindSymbolPathByName [symOuterA] "target" = some [symOuterA, symTargetInner] ∧
    generateFullReference wsRoots docMod posOutside (some "target") (some [symOuterA])
      = some "m.target" ∧
    buildCompleteReference wsRoots docMod [symOuterA, symTargetInner] = "m.A.target" ∧
    generateFullReference wsRoots docMod posOutside (some "target") (some [symOuterA])
      ≠ some (buildCompleteReference wsRoots docMod [symOuterA, symTargetInner]) := by
  refine ⟨?_, ?_, ?_, ?_⟩ <;>
    simp [generateFullReference, findSymbolHierarchy, findSymbolByName,
      specFindSymbolPathByName, buildCompleteReference, extractNamespacePart,
      buildPythonModulePath, getWorkspaceFolder, asRelativePath, wsRoots, docMod, posOutside,
      symOuterA, symTargetInner, Range.containsPos, Position.isBeforeOrEqual, beginsWith,
      slashesToDots, stripPySuffix, getFileNameWithoutExtension, stripLastExtension, lastDotIndex,
      splitChar, getLanguageSeparator, joinSep, DocumentSymbol.name]

/-- Claim C5, amended: the fallback name search visits symbols in
depth-first, top-to-bottom pre-order, matches by exact case-sensitive
string equality, and returns only the first matching symbol itself (the
last element of the ancestor path of the spec) rather than the path from the
outermost ancestor; when nothing matches it returns no result. -/
theorem C5_theorem (l : List DocumentSymbol) (w : String) :
    findSymbolByName l w = (specFindSymbolPathByName l w).bind List.getLast? :=
  findSymbolByName_eq_spec_getLast l w

/-- Claim C6: hierarchy search only ever returns symbols whose range
contains the position; its first element is the first symbol at the top
level whose range contains the position; and for a non-empty result the
remainder is the hierarchy search of the children of the chosen symbol, so
the search descends into the containing symbol. -/
theorem C6_theorem (pos : Position) (l : List DocumentSymbol) :
    (∀ s ∈ findSymbolHierarchy pos l, s.range.containsPos pos = true) ∧
    ((findSymbolHierarchy pos l).head? = l.find? fun s => s.range.containsPos pos) ∧
    (∀ s, (findSymbolHierarchy pos l).head? = some s →
      (findSymbolHierarchy pos l).tail = findSymbolHierarchy pos s.children) :=
  ⟨findSymbolHierarchy_mem_contains pos l, findSymbolHierarchy_head pos l,
    findSymbolHierarchy_tail pos l⟩

/-- Witness for `C6_theorem` at the concrete `TestThing`/`test_it`
forest and a cursor inside `test_it`. -/
theorem C6_witness :
    symTestIt.range.containsPos posInTestIt = true ∧
    (findSymbolHierarchy posInTestIt [symTestThing]).tail
      = findSymbolHierarchy posInTestIt symTestThing.children :=
  ⟨(C6_theorem posInTestIt [symTestThing]).1 symTestIt (by
      simp [findSymbolHierarchy, symTestThing, symTestIt, posInTestIt, Range.containsPos,
        Position.isBeforeOrEqual]),
    (C6_theorem posInTestIt [symTestThing]).2.2 symTestThing (by
      simp [findSymbolHierarchy, symTestThing, symTestIt, posInTestIt, Range.containsPos,
        Position.isBeforeOrEqual])⟩

/-- Claim C7: when symbol retrieval fails (`none`) or returns no symbols
(`some []`) but a word exists at the cursor of a Python document, the
command copies the fallback reference - the Python module path joined to
the literal word - and surfaces no error outcome. -/
theorem C7_theorem (roots : List String) (e : EditorState) (w : String)
    (hs : e.symbols = none ∨ e.symbols = some [])
    (hw : e.wordAt = some w) (hl : e.doc.languageId = "python") :
    handleCopyReference roots (some e)
      = .copied
          (buildPythonModulePath roots e.doc (getFileNameWithoutExtension e.doc.uriPath)
            ++ "." ++ w)
          ("Copied: "
            ++ (buildPythonModulePath roots e.doc (getFileNameWithoutExtension e.doc.uriPath)
              ++ "." ++ w)) ∧
    ∀ m, handleCopyReference roots (some e) ≠ .errored m := by
  have hfb : buildFallbackReference roots e.doc w
      = buildPythonModulePath roots e.doc (getFileNameWithoutExtension e.doc.uriPath)
        ++ "." ++ w := by
    simp [buildFallbackReference, hl]
  have hgen : generateFullReference roots e.doc e.pos e.wordAt e.symbols
      = some (buildFallbackReference roots e.doc w) := by
    rcases hs with hs | hs <;> simp [generateFullReference, hs, hw]
  have hne : buildFallbackReference roots e.doc w ≠ "" := by
    rw [hfb]
    exact append_dot_append_ne_empty _ _
  constructor
  · simp only [handleCopyReference, hgen, hfb]
    rw [if_neg (append_dot_append_ne_empty _ _)]
  · intro m
    simp [handleCopyReference, hgen, hne]

/-- Witness for `C7_theorem`: provider failure on `/ws/m.py` with the
cursor word `x`. -/
theorem C7_witness :
    handleCopyReference wsRoots (some ⟨docMod, ⟨0, 0⟩, some "x", none⟩)
      = .copied
          (buildPythonModulePath wsRoots docMod (getFileNameWithoutExtension docMod.uriPath)
            ++ "." ++ "x")
          ("Copied: "
            ++ (buildPythonModulePath wsRoots docMod (getFileNameWithoutExtension docMod.uriPath)
              ++ "." ++ "x")) ∧
    ∀ m, handleCopyReference wsRoots (some ⟨docMod, ⟨0, 0⟩, some "x", none⟩) ≠ .errored m :=
  C7_theorem wsRoots ⟨docMod, ⟨0, 0⟩, some "x", none⟩ "x" (Or.inl rfl) rfl rfl

/-- Claim C8: for a Python file outside every workspace root, the module
path is the bare file name without extension, and the complete reference
is that name followed by the symbol-name segments. -/
theorem C8_theorem (roots : List String) (doc : Document) (syms : List DocumentSymbol)
    (hws : getWorkspaceFolder roots doc.uriPath = none)
    (hl : doc.languageId = "python") :
    buildPythonModulePath roots doc (getFileNameWithoutExtension doc.uriPath)
      = getFileNameWithoutExtension doc.uriPath ∧
    (getFileNameWithoutExtension doc.uriPath ≠ "" →
      buildCompleteReference roots doc syms
        = joinSep "." (getFileNameWithoutExtension doc.uriPath :: syms.map DocumentSymbol.name)) := by
  have h1 : buildPythonModulePath roots doc (getFileNameWithoutExtension doc.uriPath)
      = getFileNameWithoutExtension doc.uriPath := by
    simp [buildPythonModulePath, hws]
  refine ⟨h1, fun hne => ?_⟩
  have h2 : extractNamespacePart roots doc = getFileNameWithoutExtension doc.uriPath := by
    simp [extractNamespacePart, hl, h1]
  simp [buildCompleteReference, h2, hne, hl, getLanguageSeparator]

/-- Witness for `C8_theorem` at `/tmp/scratch.py` with symbol `helper`. -/
theorem C8_witness :
    buildPythonModulePath wsRoots docScratch (getFileNameWithoutExtension docScratch.uriPath)
      = getFileNameWithoutExtension docScratch.uriPath ∧
    buildCompleteReference wsRoots docScratch [symHelper]
      = joinSep "."
          (getFileNameWithoutExtension docScratch.uriPath :: [symHelper].map DocumentSymbol.name) :=
  ⟨(C8_theorem wsRoots docScratch [symHelper] (by decide) rfl).1,
    (C8_theorem wsRoots docScratch [symHelper] (by decide) rfl).2 (by decide)⟩

/-- Claim C9: the hierarchy-search result is a single chain through the
forest: its first element (if any) is a root-level symbol, and every
later element is a direct child of the element before it. -/
theorem C9_theorem (pos : Position) (l : List DocumentSymbol) :
    (∀ s, (findSymbolHierarchy pos l).head? = some s → s ∈ l) ∧
    List.Chain' (fun a b => b ∈ a.children) (findSymbolHierarchy pos l) := by
  refine ⟨fun s hs => ?_, findSymbolHierarchy_chain pos l⟩
  rw [findSymbolHierarchy_head pos l] at hs
  exact List.mem_of_find?_eq_some hs

/-- Witness for `C9_theorem` at the concrete `TestThing`/`test_it`
forest. -/
theorem C9_witness :
    symTestThing ∈ [symTestThing] ∧
    List.Chain' (fun a b => b ∈ a.children) (findSymbolHierarchy posInTestIt [symTestThing]) :=
  ⟨(C9_theorem posInTestIt [symTestThing]).1 symTestThing (by
      simp [findSymbolHierarchy, symTestThing, symTestIt, posInTestIt, Range.containsPos,
        Position.isBeforeOrEqual]),
    (C9_theorem posInTestIt [symTestThing]).2⟩

/-- Claim C10: when no symbol in a non-empty forest contains the cursor
and none is named like the word under the cursor, the generated
reference equals the one generated for an empty forest - the presence
and contents of non-matching symbols do not influence the output. -/
theorem C10_theorem (roots : List String) (doc : Document) (pos : Position) (word : String)
    (syms : List DocumentSymbol) (hne : syms ≠ [])
    (hnc : ∀ s ∈ symForestNodes syms, s.range.containsPos pos = false)
    (hnn : ∀ s ∈ symForestNodes syms, s.name ≠ word) :
    generateFullReference roots doc pos (some word) (some syms)
      = generateFullReference roots doc pos (some word) (some []) := by
  have hh : findSymbolHierarchy pos syms = [] :=
    findSymbolHierarchy_eq_nil pos syms fun s hs => hnc s (mem_symForestNodes_of_mem hs)
  have hf : findSymbolByName syms word = none := findSymbolByName_eq_none syms word hnn
  have hlen : syms.length ≠ 0 := by simpa using hne
  simp [generateFullReference, hh, hf, hlen]

/-- Witness for `C10_theorem`: the cursor at `(5,0)` with word `x` and
the non-matching forest `[A]`. -/
theorem C10_witness :
    generateFullReference wsRoots docAB posOutside (some "x") (some [symLone])
      = generateFullReference wsRoots docAB posOutside (some "x") (some []) :=
  C10_theorem wsRoots docAB posOutside "x" [symLone] (by simp)
    (by simp [symForestNodes, symLone, Range.containsPos, Position.isBeforeOrEqual,
      posOutside, DocumentSymbol.range])
    (by simp [symForestNodes, symLone, DocumentSymbol.name])

end PytestCopyRef
